import Mathlib

/-!
A shallow embedding in Lean 4 of the smithy changelog tooling
(`.changes/smithy_changelog` and the legacy `.changes/tool` package).

Pure functions of the Python source are translated into Lean functions;
the file-system effects of the release cut are made explicit as an event
trace; machine integers are modelled as `Int` (Python integers are
unbounded, so no wrap-around is needed); fallible code returns
`Option`/`Except`.
-/

namespace Smithy

/-! ## Python string helpers

`pySplitAux`/`pySplit` model Python's `str.split(sep, maxsplit)` for a
one-character separator; `pySplitAll` models `str.split(sep)` with no
`maxsplit`.  `pyInt` models `int(s)` on ASCII input: surrounding
whitespace is stripped, an optional leading `+`/`-` sign is accepted, and
single underscores are permitted between digits (as in `1_000`).
-/

def pySplitAux (sep : Char) : List Char → Nat → List Char → List (List Char)
  | [], _, acc => [acc.reverse]
  | c :: rest, 0, acc => [acc.reverse ++ (c :: rest)]
  | c :: rest, n + 1, acc =>
    if c = sep then acc.reverse :: pySplitAux sep rest n []
    else pySplitAux sep rest (n + 1) (c :: acc)

def pySplit (sep : Char) (maxsplit : Nat) (s : String) : List String :=
  (pySplitAux sep s.data maxsplit []).map List.asString

def pySplitAllAux (sep : Char) : List Char → List Char → List (List Char)
  | [], acc => [acc.reverse]
  | c :: rest, acc =>
    if c = sep then acc.reverse :: pySplitAllAux sep rest []
    else pySplitAllAux sep rest (c :: acc)

def pySplitAll (sep : Char) (s : String) : List String :=
  (pySplitAllAux sep s.data []).map List.asString

/-- Python's default whitespace set for `str.strip()` / `int()` (ASCII). -/
def pyIsSpace (c : Char) : Bool :=
  c = ' ' || c = '\t' || c = '\n' || c = '\r' || c = '\x0b' || c = '\x0c'

/-- Model of `str.strip()` on the character list. -/
def pyStripChars (cs : List Char) : List Char :=
  ((cs.dropWhile pyIsSpace).reverse.dropWhile pyIsSpace).reverse

/-- Model of `str.strip()`. -/
def pyStrip (s : String) : String :=
  (pyStripChars s.data).asString

/-- Model of `str.upper()` (ASCII). -/
def pyUpper (s : String) : String :=
  (s.data.map Char.toUpper).asString

/-- Model of `str.lower()` (ASCII). -/
def pyLower (s : String) : String :=
  (s.data.map Char.toLower).asString

/-- Digit accumulation for `pyInt`: digits with single interior underscores. -/
def pyDigitsAux : Nat → List Char → Option Nat
  | acc, [] => some acc
  | _, ['_'] => none
  | acc, '_' :: c :: rest =>
    if c.isDigit then pyDigitsAux (acc * 10 + (c.toNat - 48)) rest else none
  | acc, c :: rest =>
    if c.isDigit then pyDigitsAux (acc * 10 + (c.toNat - 48)) rest else none

/-- Parse an unsigned digit string (must start with a digit). -/
def pyDigits : List Char → Option Nat
  | [] => none
  | c :: rest => if c.isDigit then pyDigitsAux (c.toNat - 48) rest else none

def pyIntOfChars : List Char → Option Int
  | '+' :: rest => (pyDigits rest).map Int.ofNat
  | '-' :: rest => (pyDigits rest).map (fun n => -(n : Int))
  | rest => (pyDigits rest).map Int.ofNat

/-- Model of Python `int(s)` (ASCII fragment). -/
def pyInt (s : String) : Option Int :=
  pyIntOfChars (pyStripChars s.data)

/-- Model of Python's `a or b` for an optional string (`None` and `""` are falsy). -/
def pyOrStr (a : Option String) (b : String) : String :=
  match a with
  | none => b
  | some s => if s = "" then b else s

/-! ## Value model (`.changes/smithy_changelog/__init__.py`) -/

/-- `ChangeType`: closed enumeration; each variant carries a section title
and a sort order (`FEATURE = "Features", 1` and so on in the source). -/
inductive ChangeType
  | FEATURE
  | BUGFIX
  | DOCUMENTATION
  | BREAK
  | OTHER
deriving DecidableEq, Repr

namespace ChangeType

def section_title : ChangeType → String
  | FEATURE => "Features"
  | BUGFIX => "Bug Fixes"
  | DOCUMENTATION => "Documentation"
  | BREAK => "Breaking Changes"
  | OTHER => "Other"

def order : ChangeType → Nat
  | FEATURE => 1
  | BUGFIX => 2
  | DOCUMENTATION => 3
  | BREAK => 0
  | OTHER => 4

/-- The Python enum member name (`ChangeType.FEATURE.name == "FEATURE"`). -/
def name : ChangeType → String
  | FEATURE => "FEATURE"
  | BUGFIX => "BUGFIX"
  | DOCUMENTATION => "DOCUMENTATION"
  | BREAK => "BREAK"
  | OTHER => "OTHER"

/-- `ChangeType.__str__`: the lower-case member name. -/
def str (t : ChangeType) : String := pyLower t.name

/-- `ChangeType[s]`: lookup by member name; `none` models the `KeyError`. -/
def fromName (s : String) : Option ChangeType :=
  if s = "FEATURE" then some FEATURE
  else if s = "BUGFIX" then some BUGFIX
  else if s = "DOCUMENTATION" then some DOCUMENTATION
  else if s = "BREAK" then some BREAK
  else if s = "OTHER" then some OTHER
  else none

end ChangeType

/-- `Change`: a single changelog entry. -/
structure Change where
  type : ChangeType
  description : String
  pull_requests : List String
deriving DecidableEq, Repr

/-! ### JSON

A JSON value model for `Change.from_json` / `Change.write`.  Python's
`json.dumps(asdict(change), default=str)` turns the `ChangeType` into its
`str()` form; everything else in a `Change` is already JSON-compatible.
-/

inductive Json
  | null
  | bool (b : Bool)
  | num (n : Int)
  | str (s : String)
  | arr (xs : List Json)
  | obj (kvs : List (String × Json))

def Json.asStr : Json → Option String
  | .str s => some s
  | _ => none

/-- Model of `dict.get` / `dict[k]` (first binding wins; the dicts produced
by the tooling have distinct keys). -/
def pyGet (kvs : List (String × Json)) (k : String) : Option Json :=
  (kvs.find? (fun p => p.1 = k)).map (fun p => p.2)

namespace Change

/-- `Change.from_json`: `type` is looked up case-insensitively by upper-casing
the tag; `description` is taken verbatim; `data.get("pull_requests") or []`
maps an absent or `null` (or empty) field to the empty list.  The embedding
requires the fields to have their declared types (`str`, `list[str]`);
Python would defer such a type error to later use. -/
def from_json (kvs : List (String × Json)) : Option Change := do
  let tJ ← pyGet kvs "type"
  let tS ← tJ.asStr
  let t ← ChangeType.fromName (pyUpper tS)
  let dJ ← pyGet kvs "description"
  let d ← dJ.asStr
  let prs ← match pyGet kvs "pull_requests" with
    | none => some []
    | some Json.null => some []
    | some (Json.arr xs) => xs.mapM Json.asStr
    | some _ => none
  pure ⟨t, d, prs⟩

/-- `Change.write` (the JSON value serialized): `asdict` emits the fields in
declaration order and `default=str` renders the `ChangeType` as its
lower-case name. -/
def toJson (c : Change) : Json :=
  .obj [("type", .str c.type.str),
        ("description", .str c.description),
        ("pull_requests", .arr (c.pull_requests.map .str))]

end Change

/-! ### Version -/

inductive Bump
  | minor
  | patch
deriving DecidableEq, Repr

/-- `Version`: three Python integers. -/
structure Version where
  major : Int
  minor : Int
  patch : Int
deriving DecidableEq, Repr

namespace Version

/-- `Version.bump`. -/
def bump (v : Version) : Bump → Version
  | .minor => ⟨v.major, v.minor + 1, 0⟩
  | .patch => ⟨v.major, v.minor, v.patch + 1⟩

/-- `Version.__lt__`. -/
def lt (a b : Version) : Bool :=
  if a.major ≠ b.major then decide (a.major < b.major)
  else if a.minor ≠ b.minor then decide (a.minor < b.minor)
  else decide (a.patch < b.patch)

theorem lt_iff (a b : Version) :
    lt a b = true ↔
      a.major < b.major ∨
        (a.major = b.major ∧
          (a.minor < b.minor ∨ (a.minor = b.minor ∧ a.patch < b.patch))) := by
  unfold lt
  split_ifs <;> simp_all

/-- `Version.__str__`. -/
def toStr (v : Version) : String :=
  toString v.major ++ "." ++ toString v.minor ++ "." ++ toString v.patch

/-- `Version.from_str`: split on at most the first two dots, require three
parts, convert each with `int()`.  The error strings stand for the
`FormatError`s (`Exception` / `ValueError`) the Python code raises. -/
def from_str (s : String) : Except String Version :=
  match pySplit '.' 2 s with
  | [a, b, c] =>
    match pyInt a, pyInt b, pyInt c with
    | some x, some y, some z => .ok ⟨x, y, z⟩
    | _, _, _ => .error "invalid literal for int() with base 10"
  | _ => .error "Invalid version. Expected `major.minor.patch`"

/-- `Version.from_path` (`smithy_changelog/__init__.py`): split the file name
on at most the first three dots, require four parts, convert the first
three with `int()`. -/
def from_path (name : String) : Except String Version :=
  match pySplit '.' 3 name with
  | [a, b, c, _] =>
    match pyInt a, pyInt b, pyInt c with
    | some x, some y, some z => .ok ⟨x, y, z⟩
    | _, _, _ => .error "invalid literal for int() with base 10"
  | _ => .error "Invalid version. Expected `major.minor.patch.extension`"

end Version

/-! ## `Release.change_map` (`smithy_changelog/__init__.py`)

The Python method builds an insertion-ordered `dict` mapping each change
type to the changes of that type (in list order) and then returns
`dict(sorted(result.items()))`; tuple comparison sorts the items by the
`ChangeType.__lt__` order field (the keys are distinct, so the lists are
never compared).  We embed the dict as an association list in insertion
order and the `sorted` call as a stable insertion sort on the key order.
-/

/-- One iteration of the `change_map` loop: append `c` to its group,
creating the group at the end of the dict if it is not yet present. -/
def addToGroups (acc : List (ChangeType × List Change)) (c : Change) :
    List (ChangeType × List Change) :=
  if acc.any (fun p => p.1 = c.type) then
    acc.map (fun p => if p.1 = c.type then (p.1, p.2 ++ [c]) else p)
  else
    acc ++ [(c.type, [c])]

/-- The insertion-ordered dict built by the `change_map` loop. -/
def buildGroups (changes : List Change) : List (ChangeType × List Change) :=
  changes.foldl addToGroups []

/-- Key order used by `dict(sorted(result.items()))`. -/
def rankLe (a b : ChangeType × List Change) : Prop :=
  a.1.order ≤ b.1.order

instance : DecidableRel rankLe := fun a b =>
  inferInstanceAs (Decidable (a.1.order ≤ b.1.order))

instance : IsTotal (ChangeType × List Change) rankLe :=
  ⟨fun a b => Nat.le_total a.1.order b.1.order⟩

instance : IsTrans (ChangeType × List Change) rankLe :=
  ⟨fun _ _ _ => Nat.le_trans⟩

/-- `Release.change_map`, as a function of the release's `changes` list. -/
def change_map (changes : List Change) : List (ChangeType × List Change) :=
  List.insertionSort rankLe (buildGroups changes)

/-! Specification-side description of `change_map` (from the spec's words):
the groups appear in the fixed rank order `Breaking, Feature, BugFix,
Documentation, Other`, absent types are omitted, and each group holds the
changes of that type in discovery order. -/

/-- All change types in ascending rank order. -/
def rankOrdered : List ChangeType :=
  [.BREAK, .FEATURE, .BUGFIX, .DOCUMENTATION, .OTHER]

/-- The group the spec prescribes for type `t`, `none` when absent. -/
def canonF (changes : List Change) (t : ChangeType) :
    Option (ChangeType × List Change) :=
  match changes.filter (fun c => c.type = t) with
  | [] => none
  | g => some (t, g)

/-- The grouping the spec prescribes. -/
def canonicalGroups (changes : List Change) : List (ChangeType × List Change) :=
  rankOrdered.filterMap (canonF changes)

/-! ### Lemmas about the dict embedding -/

/-- First-match lookup in the association list (the dict lookup). -/
def groupOf (t : ChangeType) : List (ChangeType × List Change) → Option (List Change)
  | [] => none
  | p :: rest => if p.1 = t then some p.2 else groupOf t rest

theorem groupOf_append (t : ChangeType) (l₁ l₂ : List (ChangeType × List Change)) :
    groupOf t (l₁ ++ l₂) =
      match groupOf t l₁ with
      | some g => some g
      | none => groupOf t l₂ := by
  induction l₁ with
  | nil => simp [groupOf]
  | cons p rest ih =>
    by_cases h : p.1 = t <;> simp [groupOf, h, ih]

theorem groupOf_any_iff (t : ChangeType) (l : List (ChangeType × List Change)) :
    l.any (fun p => p.1 = t) = true ↔ (groupOf t l).isSome := by
  induction l with
  | nil => simp [groupOf]
  | cons p rest ih =>
    by_cases h : p.1 = t <;> simp [groupOf, h, ih]

theorem groupOf_none_iff (t : ChangeType) (l : List (ChangeType × List Change)) :
    groupOf t l = none ↔ t ∉ l.map Prod.fst := by
  induction l with
  | nil => simp [groupOf]
  | cons p rest ih =>
    by_cases h : p.1 = t
    · simp [groupOf, h]
    · have h' : ¬t = p.1 := fun e => h e.symm
      rw [groupOf, if_neg h, ih, List.map_cons]
      simp [List.mem_cons, h']

theorem groupOf_map_append (t : ChangeType) (c : Change)
    (l : List (ChangeType × List Change)) :
    groupOf t (l.map (fun p => if p.1 = t then (p.1, p.2 ++ [c]) else p)) =
      (groupOf t l).map (fun g => g ++ [c]) := by
  induction l with
  | nil => simp [groupOf]
  | cons p rest ih =>
    by_cases h : p.1 = t <;> simp [groupOf, h, ih]

theorem groupOf_map_other (t u : ChangeType) (c : Change) (hne : t ≠ u)
    (l : List (ChangeType × List Change)) :
    groupOf t (l.map (fun p => if p.1 = u then (p.1, p.2 ++ [c]) else p)) =
      groupOf t l := by
  induction l with
  | nil => simp [groupOf]
  | cons p rest ih =>
    have hut : ¬u = t := fun e => hne e.symm
    by_cases hu : p.1 = u
    · have ht : ¬p.1 = t := fun e => hne (e.symm.trans hu)
      simp [groupOf, hu, ht, hut, ih]
    · by_cases ht : p.1 = t <;> simp [groupOf, hu, ht, hne, ih]

theorem groupOf_addToGroups_same (acc : List (ChangeType × List Change)) (c : Change) :
    groupOf c.type (addToGroups acc c) =
      some ((groupOf c.type acc).getD [] ++ [c]) := by
  unfold addToGroups
  by_cases h : acc.any (fun p => p.1 = c.type)
  · rw [if_pos h, groupOf_map_append]
    rcases Option.isSome_iff_exists.mp ((groupOf_any_iff _ _).mp h) with ⟨g, hg⟩
    simp [hg]
  · rw [if_neg h, groupOf_append]
    have hn : groupOf c.type acc = none := by
      rcases hno : groupOf c.type acc with _ | g
      · rfl
      · exact absurd ((groupOf_any_iff _ _).mpr (by simp [hno])) h
    simp [hn, groupOf]

theorem groupOf_addToGroups_ne (t : ChangeType) (acc : List (ChangeType × List Change))
    (c : Change) (hne : t ≠ c.type) :
    groupOf t (addToGroups acc c) = groupOf t acc := by
  unfold addToGroups
  by_cases h : acc.any (fun p => p.1 = c.type)
  · rw [if_pos h, groupOf_map_other t c.type c hne]
  · rw [if_neg h, groupOf_append]
    have hct : ¬c.type = t := fun e => hne e.symm
    rcases hno : groupOf t acc with _ | g
    · simp [groupOf, hct]
    · simp

/-- How `groupOf` after the whole loop relates to a plain filter. -/
def combineGroup : Option (List Change) → List Change → Option (List Change)
  | some g₀, g => some (g₀ ++ g)
  | none, g => if g = [] then none else some g

theorem groupOf_foldl (changes : List Change) :
    ∀ (acc : List (ChangeType × List Change)) (t : ChangeType),
      groupOf t (changes.foldl addToGroups acc) =
        combineGroup (groupOf t acc) (changes.filter (fun c => c.type = t)) := by
  induction changes with
  | nil =>
    intro acc t
    rcases h : groupOf t acc with _ | g <;> simp [combineGroup, h]
  | cons c rest ih =>
    intro acc t
    rw [List.foldl_cons, ih]
    by_cases ht : c.type = t
    · subst ht
      rw [groupOf_addToGroups_same]
      rcases h : groupOf c.type acc with _ | g₀ <;>
        simp [combineGroup, h, List.filter_cons]
    · have hne : t ≠ c.type := fun h => ht h.symm
      rw [groupOf_addToGroups_ne t acc c hne]
      have : (decide (c.type = t)) = false := by simp [ht]
      simp [List.filter_cons, this]

theorem groupOf_buildGroups (changes : List Change) (t : ChangeType) :
    groupOf t (buildGroups changes) =
      match changes.filter (fun c => c.type = t) with
      | [] => none
      | g => some g := by
  rw [buildGroups, groupOf_foldl]
  show combineGroup none _ = _
  rcases h : changes.filter (fun c => c.type = t) with _ | ⟨x, g⟩ <;>
    rw [h] <;> simp [combineGroup]

theorem keys_map_update (u : ChangeType) (c : Change)
    (l : List (ChangeType × List Change)) :
    (l.map (fun p => if p.1 = u then (p.1, p.2 ++ [c]) else p)).map Prod.fst =
      l.map Prod.fst := by
  induction l with
  | nil => rfl
  | cons p rest ih =>
    by_cases hp : p.1 = u <;> simp [hp, ih]

theorem keys_addToGroups (acc : List (ChangeType × List Change)) (c : Change) :
    (addToGroups acc c).map Prod.fst =
      if (groupOf c.type acc).isSome then acc.map Prod.fst
      else acc.map Prod.fst ++ [c.type] := by
  unfold addToGroups
  by_cases h : acc.any (fun p => p.1 = c.type)
  · rw [if_pos h, if_pos ((groupOf_any_iff _ _).mp h), keys_map_update]
  · rw [if_neg h, if_neg (fun hs => h ((groupOf_any_iff _ _).mpr hs))]
    simp

theorem keysNodup_foldl (changes : List Change) :
    ∀ (acc : List (ChangeType × List Change)),
      (acc.map Prod.fst).Nodup →
      ((changes.foldl addToGroups acc).map Prod.fst).Nodup := by
  induction changes with
  | nil => intro acc h; simpa using h
  | cons c rest ih =>
    intro acc h
    rw [List.foldl_cons]
    refine ih _ ?_
    rw [keys_addToGroups]
    rcases hg : groupOf c.type acc with _ | g
    · simp only [hg, Option.isSome_none, if_neg Bool.false_ne_true]
      have : c.type ∉ acc.map Prod.fst := (groupOf_none_iff _ _).mp hg
      simp [List.nodup_append, h, this]
    · simpa [hg] using h

theorem keysNodup_buildGroups (changes : List Change) :
    ((buildGroups changes).map Prod.fst).Nodup :=
  keysNodup_foldl changes [] (by simp)

/-! ### Membership lemma: an association list with distinct keys is
determined, as a set, by its lookup function. -/

theorem mem_iff_groupOf (l : List (ChangeType × List Change))
    (h : (l.map Prod.fst).Nodup) (t : ChangeType) (g : List Change) :
    (t, g) ∈ l ↔ groupOf t l = some g := by
  induction l with
  | nil => simp [groupOf]
  | cons p rest ih =>
    obtain ⟨p1, p2⟩ := p
    rw [List.map_cons, List.nodup_cons] at h
    obtain ⟨hp, hrest⟩ := h
    by_cases hk : p1 = t
    · subst hk
      have hnot : (p1, g) ∉ rest := fun hin =>
        hp (List.mem_map.mpr ⟨(p1, g), hin, rfl⟩)
      simp [groupOf, hnot, eq_comm]
    · have hk' : ¬t = p1 := fun e => hk e.symm
      simp [groupOf, hk, hk', ih hrest]

/-! ### The canonical grouping has the same lookups and distinct keys -/

theorem canonF_eq_some (changes : List Change) (t : ChangeType)
    (p : ChangeType × List Change) (h : canonF changes t = some p) :
    p.1 = t ∧ p.2 = changes.filter (fun c => c.type = t) := by
  unfold canonF at h
  rcases hf : changes.filter (fun c => c.type = t) with _ | ⟨x, g⟩ <;>
    rw [hf] at h
  · cases h
  · cases h; exact ⟨rfl, hf.symm⟩

theorem groupOf_filterMap_canonF (changes : List Change) :
    ∀ (L : List ChangeType), L.Nodup → ∀ t : ChangeType,
      groupOf t (L.filterMap (canonF changes)) =
        if t ∈ L then
          match changes.filter (fun c => c.type = t) with
          | [] => none
          | g => some g
        else none := by
  intro L
  induction L with
  | nil => simp [groupOf]
  | cons u L ih =>
    intro hnd t
    rw [List.nodup_cons] at hnd
    obtain ⟨hu, hL⟩ := hnd
    rcases hf : canonF changes u with _ | p
    · rw [List.filterMap_cons_none hf, ih hL t]
      by_cases ht : t = u
      · subst ht
        have hfil : changes.filter (fun c => c.type = t) = [] := by
          unfold canonF at hf
          rcases h : changes.filter (fun c => c.type = t) with _ | ⟨x, g⟩
          · exact h
          · rw [h] at hf; cases hf
        simp [hu, hfil]
      · simp [ht]
    · obtain ⟨hp1, hp2⟩ := canonF_eq_some changes u p hf
      rw [List.filterMap_cons_some hf]
      by_cases ht : t = u
      · subst ht
        have hne : changes.filter (fun c => c.type = t) ≠ [] := by
          intro h
          unfold canonF at hf
          rw [h] at hf; cases hf
        rcases h : changes.filter (fun c => c.type = t) with _ | ⟨x, g⟩
        · exact absurd h hne
        · simp [groupOf, hp1, hp2, h]
      · have hne : ¬p.1 = t := by
          rw [hp1]; exact fun e => ht e.symm
        simp only [groupOf, if_neg hne, ih hL t, List.mem_cons]
        have hiff : (t = u ∨ t ∈ L) ↔ t ∈ L := by
          constructor
          · rintro (h | h)
            · exact absurd h ht
            · exact h
          · exact Or.inr
        rw [if_congr hiff rfl rfl]

theorem keys_filterMap_canonF_sublist (changes : List Change) :
    ∀ (L : List ChangeType),
      ((L.filterMap (canonF changes)).map Prod.fst).Sublist L := by
  intro L
  induction L with
  | nil => simp
  | cons u L ih =>
    rcases hf : canonF changes u with _ | p
    · rw [List.filterMap_cons_none hf]
      exact ih.cons u
    · rw [List.filterMap_cons_some hf, List.map_cons,
        (canonF_eq_some changes u p hf).1]
      exact ih.cons₂ u

theorem keysNodup_canonicalGroups (changes : List Change) :
    ((canonicalGroups changes).map Prod.fst).Nodup :=
  (keys_filterMap_canonF_sublist changes rankOrdered).nodup
    (by simp [rankOrdered])

/-! ### Sortedness -/

/-- Strict rank order on groups. -/
def rankLt (a b : ChangeType × List Change) : Prop :=
  a.1.order < b.1.order

instance : IsAntisymm (ChangeType × List Change) rankLt :=
  ⟨fun _ _ h1 h2 => absurd (Nat.lt_trans h1 h2) (Nat.lt_irrefl _)⟩

theorem order_inj (t u : ChangeType) (h : t.order = u.order) : t = u := by
  cases t <;> cases u <;> first | rfl | (exact absurd h (by decide))

theorem pairwise_rankLt_of_le_of_nodup (l : List (ChangeType × List Change))
    (hle : l.Pairwise rankLe) (hnd : (l.map Prod.fst).Nodup) :
    l.Pairwise rankLt := by
  have hne : l.Pairwise (fun a b => a.1 ≠ b.1) := List.pairwise_map.mp hnd
  exact (hle.and hne).imp (fun h =>
    Nat.lt_of_le_of_ne h.1 (fun he => h.2 (order_inj _ _ he)))

theorem pairwise_rankLt_canonicalGroups (changes : List Change) :
    (canonicalGroups changes).Pairwise rankLt := by
  have hbase : rankOrdered.Pairwise (fun t u : ChangeType => t.order < u.order) := by
    decide
  refine List.Pairwise.filterMap (canonF changes) ?_ hbase
  intro t u htu p hp q hq
  rw [Option.mem_def] at hp hq
  have h1 := (canonF_eq_some changes t p hp).1
  have h2 := (canonF_eq_some changes u q hq).1
  simpa [rankLt, h1, h2] using htu

/-! ### `change_map` returns exactly the grouping the spec prescribes -/

theorem buildGroups_perm_canonical (changes : List Change) :
    (buildGroups changes).Perm (canonicalGroups changes) := by
  refine (List.perm_ext_iff_of_nodup
    ((keysNodup_buildGroups changes).of_map _)
    ((keysNodup_canonicalGroups changes).of_map _)).mpr ?_
  rintro ⟨t, g⟩
  rw [mem_iff_groupOf _ (keysNodup_buildGroups changes) t g,
    mem_iff_groupOf _ (keysNodup_canonicalGroups changes) t g,
    groupOf_buildGroups, canonicalGroups,
    groupOf_filterMap_canonF changes rankOrdered (by decide) t,
    if_pos (by cases t <;> decide)]

theorem changeMap_pairwise_rankLt (changes : List Change) :
    (change_map changes).Pairwise rankLt := by
  have hs : (change_map changes).Pairwise rankLe :=
    List.sorted_insertionSort rankLe (buildGroups changes)
  have hperm : (change_map changes).Perm (buildGroups changes) :=
    List.perm_insertionSort rankLe (buildGroups changes)
  have hnd : ((change_map changes).map Prod.fst).Nodup :=
    (hperm.map Prod.fst).nodup_iff.mpr (keysNodup_buildGroups changes)
  exact pairwise_rankLt_of_le_of_nodup _ hs hnd

theorem changeMap_eq_canonicalGroups (changes : List Change) :
    change_map changes = canonicalGroups changes := by
  have hperm : (change_map changes).Perm (canonicalGroups changes) :=
    (List.perm_insertionSort rankLe (buildGroups changes)).trans
      (buildGroups_perm_canonical changes)
  exact List.eq_of_perm_of_sorted hperm
    (changeMap_pairwise_rankLt changes)
    (pairwise_rankLt_canonicalGroups changes)

/-! ## Release builder (`smithy_changelog/release.py`)

`release()` is modelled as a function from its inputs (the staged files in
glob order with their parsed contents, the optional explicit version and
bump, the version-marker file content, the persisted release-file names,
the optional release date, today's date, and whether the releases
directory exists) to the trace of file-system effects it performs, paired
with its result.  The trace records, in program order, the staged-entry
reads and deletions of the gather loop and every mutation of the staging /
release directories and marker files; an error result carries the trace of
effects performed before the raise.
-/

/-- `Release` (`@dataclass(init=False)`). -/
structure SRelease where
  version : Version
  changes : List Change
  date : String
deriving DecidableEq, Repr

/-- `Release.__init__` with a `Version` argument: `date or today`. -/
def mkRelease (version : Version) (changes : List Change)
    (date? : Option String) (today : String) : SRelease :=
  ⟨version, changes, pyOrStr date? today⟩

/-- File-system effects of a release cut. -/
inductive FsEvent
  | readStaged (name : String)
  | deleteStaged (name : String)
  | mkdirReleases
  | writeRelease (version : Version)
  | writeChangelog
  | writeVersionFile
deriving DecidableEq, Repr

/-- Errors of a release cut (the spec's `NoStagedChangesError`,
`NoBaseVersionError` and `FormatError`; Python raises
`ValueError`/`Exception` with messages). -/
inductive ReleaseError
  | noStagedChanges
  | noBaseVersion
  | formatError (msg : String)
deriving DecidableEq, Repr

/-- Events of the gather loop: each staged entry is read and then
immediately unlinked (`entry.unlink()` inside the loop). -/
def stagedEvents (staged : List (String × Change)) : List FsEvent :=
  staged.flatMap (fun e => [FsEvent.readStaged e.1, FsEvent.deleteStaged e.1])

/-- The `default_bump` computation of the gather loop: starts at
`"patch"`, becomes `"minor"` when a `FEATURE` or `BREAK` change is seen. -/
def defaultBumpOf (staged : List (String × Change)) : Bump :=
  staged.foldl
    (fun b e =>
      if e.2.type = ChangeType.FEATURE ∨ e.2.type = ChangeType.BREAK then Bump.minor
      else b)
    Bump.patch

/-- Descending order on `(version key, file name)` pairs used by
`Release.get_release_files` (`sorted(..., reverse=True)`). -/
def relFileGe (a b : Version × String) : Prop :=
  ¬Version.lt a.1 b.1 = true

instance : DecidableRel relFileGe := fun a b =>
  inferInstanceAs (Decidable ¬_)

instance : IsTotal (Version × String) relFileGe :=
  ⟨fun a b => by
    unfold relFileGe
    rw [Version.lt_iff, Version.lt_iff]
    omega⟩

instance : IsTrans (Version × String) relFileGe :=
  ⟨fun a b c => by
    unfold relFileGe
    rw [Version.lt_iff, Version.lt_iff, Version.lt_iff]
    omega⟩

/-- `Release.get_release_files`: key every file name by
`Version.from_path` (any failure aborts) and sort descending. -/
def get_release_files (names : List String) :
    Except String (List (Version × String)) := do
  let keyed ← names.mapM (fun n => do
    let v ← Version.from_path n
    pure (v, n))
  pure (List.insertionSort relFileGe keyed)

/-- `_compute_version`: base from the version-marker content when a marker
file was given, else from the newest persisted release file name. -/
def compute_version (bump : Bump) (versionFileContent : Option String)
    (releaseFiles : List String) : Except ReleaseError Version :=
  match versionFileContent with
  | some content =>
    match Version.from_str (pyStrip content) with
    | .ok base => .ok (base.bump bump)
    | .error e => .error (.formatError e)
  | none =>
    match get_release_files releaseFiles with
    | .error e => .error (.formatError e)
    | .ok sortedFiles =>
      match sortedFiles with
      | [] => .error .noBaseVersion
      | (_, n) :: _ =>
        match Version.from_path n with
        | .ok base => .ok (base.bump bump)
        | .error e => .error (.formatError e)

/-- Result of a successful release cut: the resolved version, the
resolved bump kind, and the constructed `Release`. -/
structure ReleaseOutcome where
  version : Version
  bump : Bump
  release : SRelease
deriving DecidableEq, Repr

/-- The part of `release()` after the gather loop: the empty-staging
check, the releases-directory creation, bump/version resolution
(`bump or default_bump`, `version or _compute_version(...)`), the release
construction, the release-file write, the changelog render-and-write, and
the version-marker write. -/
def releaseAfterScan (staged : List (String × Change)) (version? : Option Version)
    (bump? : Option Bump) (versionFileContent : Option String)
    (releaseFiles : List String) (releaseDate? : Option String) (today : String)
    (releasesDirExists : Bool) :
    List FsEvent × Except ReleaseError ReleaseOutcome :=
  if staged.isEmpty then ([], .error .noStagedChanges)
  else
    let mkEvts := if releasesDirExists then [] else [FsEvent.mkdirReleases]
    let bump := bump?.getD (defaultBumpOf staged)
    let resolved : Except ReleaseError Version :=
      match version? with
      | some v => .ok v
      | none => compute_version bump versionFileContent releaseFiles
    match resolved with
    | .error e => (mkEvts, .error e)
    | .ok v =>
      let rel := mkRelease v (staged.map (fun e => e.2)) releaseDate? today
      (mkEvts ++ [FsEvent.writeRelease v, FsEvent.writeChangelog] ++
          (if versionFileContent.isSome then [FsEvent.writeVersionFile] else []),
        .ok ⟨v, bump, rel⟩)

/-- `release()`: the gather loop's reads and per-entry deletions followed
by everything after the loop. -/
def releaseRun (staged : List (String × Change)) (version? : Option Version)
    (bump? : Option Bump) (versionFileContent : Option String)
    (releaseFiles : List String) (releaseDate? : Option String) (today : String)
    (releasesDirExists : Bool) :
    List FsEvent × Except ReleaseError ReleaseOutcome :=
  let rest := releaseAfterScan staged version? bump? versionFileContent
    releaseFiles releaseDate? today releasesDirExists
  (stagedEvents staged ++ rest.1, rest.2)

/-- The ordering property claimed by the spec for the release cut: any
persistence of the release record happens before any staged-file
deletion. -/
def persistBeforeDeletes (evs : List FsEvent) : Prop :=
  ∀ (i j : Nat) (n : String) (v : Version),
    evs[i]? = some (FsEvent.deleteStaged n) →
      evs[j]? = some (FsEvent.writeRelease v) → j < i

theorem writeRelease_not_mem_stagedEvents (staged : List (String × Change))
    (v : Version) : FsEvent.writeRelease v ∉ stagedEvents staged := by
  induction staged with
  | nil => simp [stagedEvents]
  | cons e rest ih => simp_all [stagedEvents]

theorem deleteStaged_not_mem_afterScan (staged : List (String × Change))
    (version? : Option Version) (bump? : Option Bump)
    (versionFileContent : Option String) (releaseFiles : List String)
    (releaseDate? : Option String) (today : String) (releasesDirExists : Bool)
    (n : String) :
    FsEvent.deleteStaged n ∉
      (releaseAfterScan staged version? bump? versionFileContent releaseFiles
          releaseDate? today releasesDirExists).1 := by
  unfold releaseAfterScan
  repeat' split
  any_goals simp
  all_goals split <;> simp

/-- If a list splits into a prefix free of `Q`-events and a suffix free of
`P`-events, every `P`-event indexes before every `Q`-event. -/
theorem append_index_lt {α : Type} (A B : List α) (P Q : α → Prop)
    (hB : ∀ x ∈ B, ¬P x) (hA : ∀ x ∈ A, ¬Q x) :
    ∀ (i j : Nat) (a b : α), (A ++ B)[i]? = some a → P a →
      (A ++ B)[j]? = some b → Q b → i < j := by
  intro i j a b hia hpa hjb hqb
  have hi : i < A.length := by
    by_contra hge
    rw [List.getElem?_append_right (Nat.le_of_not_lt hge)] at hia
    exact hB a (List.getElem?_mem hia) hpa
  have hj : A.length ≤ j := by
    by_contra hlt
    rw [List.getElem?_append, if_pos (Nat.lt_of_not_le hlt)] at hjb
    exact hA b (List.getElem?_mem hjb) hqb
  omega

/-- In every run of `release()`, every staged-file deletion happens before
the release record is persisted (the deletions are interleaved with the
reads of the gather loop, which precedes the write). -/
theorem releaseRun_deletes_precede_persist (staged : List (String × Change))
    (version? : Option Version) (bump? : Option Bump)
    (versionFileContent : Option String) (releaseFiles : List String)
    (releaseDate? : Option String) (today : String) (releasesDirExists : Bool)
    (evs : List FsEvent) (res : Except ReleaseError ReleaseOutcome)
    (hrun : releaseRun staged version? bump? versionFileContent releaseFiles
      releaseDate? today releasesDirExists = (evs, res)) :
    ∀ (i j : Nat) (n : String) (v : Version),
      evs[i]? = some (FsEvent.deleteStaged n) →
        evs[j]? = some (FsEvent.writeRelease v) → i < j := by
  intro i j n v hi hj
  have hevs : evs = stagedEvents staged ++
      (releaseAfterScan staged version? bump? versionFileContent releaseFiles
        releaseDate? today releasesDirExists).1 :=
    (congrArg Prod.fst hrun).symm
  subst hevs
  refine append_index_lt _ _
    (fun x => ∃ m, x = FsEvent.deleteStaged m)
    (fun x => ∃ w, x = FsEvent.writeRelease w)
    ?_ ?_ i j _ _ hi ⟨n, rfl⟩ hj ⟨v, rfl⟩
  · rintro x hx ⟨m, rfl⟩
    exact deleteStaged_not_mem_afterScan staged version? bump? versionFileContent
      releaseFiles releaseDate? today releasesDirExists m hx
  · rintro x hx ⟨w, rfl⟩
    exact writeRelease_not_mem_stagedEvents staged w hx

/-! ### Default bump computation -/

theorem foldl_bump_eq_minor (l : List (String × Change)) :
    ∀ b : Bump,
      l.foldl
        (fun b e =>
          if e.2.type = ChangeType.FEATURE ∨ e.2.type = ChangeType.BREAK then
            Bump.minor
          else b) b = Bump.minor ↔
      b = Bump.minor ∨
        ∃ e ∈ l, e.2.type = ChangeType.FEATURE ∨ e.2.type = ChangeType.BREAK := by
  induction l with
  | nil => intro b; simp
  | cons e rest ih =>
    intro b
    rw [List.foldl_cons, ih]
    by_cases h : e.2.type = ChangeType.FEATURE ∨ e.2.type = ChangeType.BREAK
    · rw [if_pos h]
      constructor
      · intro _
        exact Or.inr ⟨e, List.mem_cons_self e rest, h⟩
      · intro _
        exact Or.inl rfl
    · simp only [if_neg h, List.mem_cons]
      constructor
      · rintro (hb | ⟨x, hx, hfb⟩)
        · exact Or.inl hb
        · exact Or.inr ⟨x, Or.inr hx, hfb⟩
      · rintro (hb | ⟨x, hx | hx, hfb⟩)
        · exact Or.inl hb
        · exact absurd (hx ▸ hfb) h
        · exact Or.inr ⟨x, hx, hfb⟩

theorem defaultBumpOf_eq_minor (staged : List (String × Change)) :
    defaultBumpOf staged = Bump.minor ↔
      ∃ e ∈ staged, e.2.type = ChangeType.FEATURE ∨ e.2.type = ChangeType.BREAK := by
  rw [defaultBumpOf, foldl_bump_eq_minor]
  simp

theorem releaseRun_ok_bump (staged : List (String × Change))
    (versionFileContent : Option String) (releaseFiles : List String)
    (releaseDate? : Option String) (today : String) (releasesDirExists : Bool)
    (evs : List FsEvent) (out : ReleaseOutcome)
    (hrun : releaseRun staged none none versionFileContent releaseFiles
      releaseDate? today releasesDirExists = (evs, .ok out)) :
    out.bump = defaultBumpOf staged := by
  have hsnd : (releaseAfterScan staged none none versionFileContent releaseFiles
      releaseDate? today releasesDirExists).2 = .ok out :=
    congrArg Prod.snd hrun
  unfold releaseAfterScan at hsnd
  split at hsnd
  · cases hsnd
  · simp only [Option.getD_none] at hsnd
    split at hsnd
    · cases hsnd
    · cases hsnd
      rfl

/-! ## Claim theorems for the release builder -/

/-- C1 (counterexample): the claim states that a release cut with a
non-empty staged set persists the release record before deleting any
staged file.  In the concrete run below the trace deletes the staged file
(index 1) before the release-file write (index 2), so the claimed
ordering `persistBeforeDeletes` fails. -/
theorem claim_C1_counterexample :
    (releaseRun [("feature-1.json", ⟨ChangeType.FEATURE, "Add X", []⟩)]
        (some ⟨1, 1, 0⟩) none none [] none "2025-01-01" true).1 =
      [FsEvent.readStaged "feature-1.json", FsEvent.deleteStaged "feature-1.json",
        FsEvent.writeRelease ⟨1, 1, 0⟩, FsEvent.writeChangelog] ∧
    ¬persistBeforeDeletes
      (releaseRun [("feature-1.json", ⟨ChangeType.FEATURE, "Add X", []⟩)]
          (some ⟨1, 1, 0⟩) none none [] none "2025-01-01" true).1 := by
  refine ⟨rfl, fun h => ?_⟩
  have h12 := h 1 2 "feature-1.json" ⟨1, 1, 0⟩ rfl rfl
  omega

/-- C1 (amended): in every run of the release cut, each staged change
file is deleted during enumeration, immediately after it is read and
before the release record is persisted to the releases store; hence if
persistence fails, every staged file enumerated in step 1 has already
been deleted. -/
theorem claim_C1_amended (staged : List (String × Change))
    (version? : Option Version) (bump? : Option Bump)
    (versionFileContent : Option String) (releaseFiles : List String)
    (releaseDate? : Option String) (today : String) (releasesDirExists : Bool)
    (evs : List FsEvent) (res : Except ReleaseError ReleaseOutcome)
    (hrun : releaseRun staged version? bump? versionFileContent releaseFiles
      releaseDate? today releasesDirExists = (evs, res)) :
    ∀ (i j : Nat) (n : String) (v : Version),
      evs[i]? = some (FsEvent.deleteStaged n) →
        evs[j]? = some (FsEvent.writeRelease v) → i < j :=
  releaseRun_deletes_precede_persist staged version? bump? versionFileContent
    releaseFiles releaseDate? today releasesDirExists evs res hrun

/-- Witness for C1 (amended) at a concrete run: the deletion at index 1
precedes the release write at index 2. -/
theorem claim_C1_amended_witness :
    (releaseRun [("feature-1.json", ⟨ChangeType.FEATURE, "Add X", []⟩)]
        (some ⟨1, 1, 0⟩) none none [] none "2025-01-01" true =
      ([FsEvent.readStaged "feature-1.json", FsEvent.deleteStaged "feature-1.json",
          FsEvent.writeRelease ⟨1, 1, 0⟩, FsEvent.writeChangelog],
        Except.ok ⟨⟨1, 1, 0⟩, Bump.minor,
          ⟨⟨1, 1, 0⟩, [⟨ChangeType.FEATURE, "Add X", []⟩], "2025-01-01"⟩⟩)) ∧
    (1 : Nat) < 2 := by
  refine ⟨rfl, ?_⟩
  exact claim_C1_amended
    [("feature-1.json", ⟨ChangeType.FEATURE, "Add X", []⟩)]
    (some ⟨1, 1, 0⟩) none none [] none "2025-01-01" true
    [FsEvent.readStaged "feature-1.json", FsEvent.deleteStaged "feature-1.json",
      FsEvent.writeRelease ⟨1, 1, 0⟩, FsEvent.writeChangelog]
    (Except.ok ⟨⟨1, 1, 0⟩, Bump.minor,
      ⟨⟨1, 1, 0⟩, [⟨ChangeType.FEATURE, "Add X", []⟩], "2025-01-01"⟩⟩)
    rfl 1 2 "feature-1.json" ⟨1, 1, 0⟩ rfl rfl

/-- C7: whenever the staging area contains zero staged change files, the
release cut fails with `NoStagedChangesError` and its effect trace is
empty: no file in the staging or persisted-releases directory is created,
deleted, or modified. -/
theorem claim_C7 (version? : Option Version) (bump? : Option Bump)
    (versionFileContent : Option String) (releaseFiles : List String)
    (releaseDate? : Option String) (today : String) (releasesDirExists : Bool) :
    releaseRun [] version? bump? versionFileContent releaseFiles releaseDate?
      today releasesDirExists = ([], .error .noStagedChanges) := rfl

/-- C4: with a non-empty staged set, no explicit bump and no explicit
version, the release cut selects a minor bump if at least one staged
change has type Feature or Breaking, and a patch bump if every staged
change has type BugFix, Documentation, or Other. -/
theorem claim_C4 (staged : List (String × Change))
    (versionFileContent : Option String) (releaseFiles : List String)
    (releaseDate? : Option String) (today : String) (releasesDirExists : Bool)
    (evs : List FsEvent) (out : ReleaseOutcome)
    (_hne : staged ≠ [])
    (hrun : releaseRun staged none none versionFileContent releaseFiles
      releaseDate? today releasesDirExists = (evs, .ok out)) :
    ((∃ e ∈ staged,
        e.2.type = ChangeType.FEATURE ∨ e.2.type = ChangeType.BREAK) →
      out.bump = Bump.minor) ∧
    ((∀ e ∈ staged,
        e.2.type = ChangeType.BUGFIX ∨ e.2.type = ChangeType.DOCUMENTATION ∨
          e.2.type = ChangeType.OTHER) →
      out.bump = Bump.patch) := by
  have hb : out.bump = defaultBumpOf staged :=
    releaseRun_ok_bump staged versionFileContent releaseFiles releaseDate?
      today releasesDirExists evs out hrun
  constructor
  · intro hex
    rw [hb]
    exact (defaultBumpOf_eq_minor staged).mpr hex
  · intro hall
    rw [hb]
    rcases hmp : defaultBumpOf staged with _ | _
    · obtain ⟨e, he, hf⟩ := (defaultBumpOf_eq_minor staged).mp hmp
      rcases hall e he with h1 | h1 | h1 <;> rcases hf with hf | hf <;>
        simp_all
    · rfl

/-- Witness for C4 at a concrete run: one staged Feature change with a
version marker of 1.0.0 resolves to a minor bump (release 1.1.0). -/
theorem claim_C4_witness :
    (([("feature-1.json", (⟨ChangeType.FEATURE, "Add X", []⟩ : Change))] :
        List (String × Change)) ≠ []) ∧
    releaseRun [("feature-1.json", ⟨ChangeType.FEATURE, "Add X", []⟩)] none none
        (some "1.0.0") [] (some "2024-11-13") "2024-11-13" true =
      ([FsEvent.readStaged "feature-1.json", FsEvent.deleteStaged "feature-1.json",
          FsEvent.writeRelease ⟨1, 1, 0⟩, FsEvent.writeChangelog,
          FsEvent.writeVersionFile],
        Except.ok ⟨⟨1, 1, 0⟩, Bump.minor,
          ⟨⟨1, 1, 0⟩, [⟨ChangeType.FEATURE, "Add X", []⟩], "2024-11-13"⟩⟩) ∧
    (⟨⟨1, 1, 0⟩, Bump.minor,
        ⟨⟨1, 1, 0⟩, [⟨ChangeType.FEATURE, "Add X", []⟩], "2024-11-13"⟩⟩ :
      ReleaseOutcome).bump = Bump.minor := by
  refine ⟨by simp, by rfl, ?_⟩
  exact (claim_C4
    [("feature-1.json", ⟨ChangeType.FEATURE, "Add X", []⟩)]
    (some "1.0.0") [] (some "2024-11-13") "2024-11-13" true
    [FsEvent.readStaged "feature-1.json", FsEvent.deleteStaged "feature-1.json",
      FsEvent.writeRelease ⟨1, 1, 0⟩, FsEvent.writeChangelog,
      FsEvent.writeVersionFile]
    ⟨⟨1, 1, 0⟩, Bump.minor,
      ⟨⟨1, 1, 0⟩, [⟨ChangeType.FEATURE, "Add X", []⟩], "2024-11-13"⟩⟩
    (by simp) rfl).1
    ⟨("feature-1.json", ⟨ChangeType.FEATURE, "Add X", []⟩),
      List.mem_cons_self _ _, Or.inl rfl⟩

/-! ## Claim theorems for the value model (parsing and serialization) -/

/-- The claim's reading of an "integer component": an optional sign
followed by one or more digits and nothing else. -/
def isIntComponent (s : String) : Bool :=
  let cs :=
    match s.data with
    | '+' :: r => r
    | '-' :: r => r
    | r => r
  !cs.isEmpty && cs.all Char.isDigit

/-- The claim's reading of "exactly three dot-separated integer
components": splitting on every dot yields exactly three components, each
an integer numeral. -/
def threeDotSeparatedInts (s : String) : Bool :=
  match pySplitAll '.' s with
  | [a, b, c] => isIntComponent a && isIntComponent b && isIntComponent c
  | _ => false

/-- What `Version.from_str` actually accepts: the first-two-dot split has
three parts and Python's `int()` accepts each part. -/
def fromStrAccepts (s : String) : Bool :=
  match pySplit '.' 2 s with
  | [a, b, c] => (pyInt a).isSome && (pyInt b).isSome && (pyInt c).isSome
  | _ => false

/-- C6 (counterexample): the claim says every input that is not exactly
three dot-separated integer components fails with a `FormatError`.  The
string `"1.2. 3"` is not of that shape (its third component begins with a
space), yet `Version.from_str` succeeds on it, because Python's `int()`
strips surrounding whitespace. -/
theorem claim_C6_counterexample :
    ¬(∀ s : String, threeDotSeparatedInts s = false →
        ∀ v : Version, Version.from_str s ≠ Except.ok v) := by
  intro h
  exact h "1.2. 3" rfl ⟨1, 2, 3⟩ rfl

/-- C6 (amended): `Version.from_str` fails with a `FormatError` exactly on
the strings whose first-two-dot split is not three components each
accepted by Python's `int()` conversion; `int()` additionally tolerates
surrounding whitespace, a leading sign, and underscore digit separators,
so some strings that are not exactly three plain dot-separated integer
numerals still parse successfully. -/
theorem claim_C6_amended (s : String) :
    (fromStrAccepts s = false → ∃ msg, Version.from_str s = Except.error msg) ∧
    (fromStrAccepts s = true → ∃ v, Version.from_str s = Except.ok v) := by
  unfold fromStrAccepts Version.from_str
  rcases pySplit '.' 2 s with _ | ⟨a, _ | ⟨b, _ | ⟨c, _ | ⟨d, rest⟩⟩⟩⟩
  · exact ⟨fun _ => ⟨_, rfl⟩, fun hf => by cases hf⟩
  · exact ⟨fun _ => ⟨_, rfl⟩, fun hf => by cases hf⟩
  · exact ⟨fun _ => ⟨_, rfl⟩, fun hf => by cases hf⟩
  · rcases ha : pyInt a with _ | x <;> rcases hb : pyInt b with _ | y <;>
      rcases hc : pyInt c with _ | z <;>
      simp [ha, hb, hc]
  · exact ⟨fun _ => ⟨_, rfl⟩, fun hf => by cases hf⟩

/-- Witness for C6 (amended): `"1.2"` is not accepted and fails. -/
theorem claim_C6_witness :
    fromStrAccepts "1.2" = false ∧
      ∃ msg, Version.from_str "1.2" = Except.error msg :=
  ⟨rfl, (claim_C6_amended "1.2").1 rfl⟩

/-- C3 (counterexample): the claim says every `Change` produced by the
parsing operations has a description that is non-empty after trimming.
`Change.from_json` accepts `{"type": "other", "description": ""}` and
produces a `Change` whose trimmed description is empty. -/
theorem claim_C3_counterexample :
    ¬(∀ (kvs : List (String × Json)) (c : Change),
        Change.from_json kvs = some c → pyStrip c.description ≠ "") := by
  intro h
  exact h [("type", Json.str "other"), ("description", Json.str "")]
    ⟨ChangeType.OTHER, "", []⟩ rfl rfl

/-- C3 (amended): the parsing operations enforce no non-emptiness check:
`Change.from_json` copies the JSON `description` field verbatim into the
produced `Change`, so the description is non-empty after trimming exactly
when the input field is; empty descriptions are representable. -/
theorem claim_C3_amended (kvs : List (String × Json)) (c : Change)
    (h : Change.from_json kvs = some c) :
    pyGet kvs "description" = some (Json.str c.description) := by
  unfold Change.from_json at h
  simp only [Option.bind_eq_bind] at h
  rcases h1 : pyGet kvs "type" with _ | tJ
  · rw [h1] at h
    simp at h
  rw [h1] at h
  simp only [Option.some_bind] at h
  rcases h2 : tJ.asStr with _ | tS
  · rw [h2] at h
    simp at h
  rw [h2] at h
  simp only [Option.some_bind] at h
  rcases h3 : ChangeType.fromName (pyUpper tS) with _ | t
  · rw [h3] at h
    simp at h
  rw [h3] at h
  simp only [Option.some_bind] at h
  rcases h4 : pyGet kvs "description" with _ | dJ
  · rw [h4] at h
    simp at h
  rw [h4] at h
  simp only [Option.some_bind] at h
  rcases h5 : dJ.asStr with _ | d
  · rw [h5] at h
    simp at h
  rw [h5] at h
  simp only [Option.some_bind] at h
  have hdJ : dJ = Json.str d := by
    cases dJ <;> simp [Json.asStr] at h5
    rw [h5]
  split at h
  · cases h
    rw [hdJ]
  · cases h
    rw [hdJ]
  · next xs _ =>
    rcases h7 : xs.mapM Json.asStr with _ | ys
    · rw [h7] at h
      simp at h
    · rw [h7] at h
      simp only [Option.some_bind] at h
      cases h
      rw [hdJ]
  · simp at h

/-- Witness for C3 (amended): a parse with description `"Add X"` returns
that description verbatim. -/
theorem claim_C3_amended_witness :
    Change.from_json
        [("type", Json.str "feature"), ("description", Json.str "Add X")] =
      some ⟨ChangeType.FEATURE, "Add X", []⟩ ∧
    pyGet [("type", Json.str "feature"), ("description", Json.str "Add X")]
        "description" =
      some (Json.str
        (⟨ChangeType.FEATURE, "Add X", []⟩ : Change).description) :=
  ⟨rfl, claim_C3_amended _ _ rfl⟩

theorem mapM_asStr (l : List String) :
    (l.map Json.str).mapM Json.asStr = some l := by
  induction l with
  | nil => rfl
  | cons x xs ih =>
    rw [List.map_cons, List.mapM_cons, ih]
    rfl

theorem fromName_upper_str (t : ChangeType) :
    ChangeType.fromName (pyUpper (ChangeType.str t)) = some t := by
  cases t <;> rfl

/-- C10: serializing a `Change` with `Change.write` and re-parsing the
resulting JSON object with `Change.from_json` yields the original
`Change`; the type tag is written as the lower-case enum name and parsed
back case-insensitively (the upper-case tag also parses), and an absent or
`null` `pull_requests` field parses to the empty list. -/
theorem claim_C10 (c : Change) (t : ChangeType) (d : String) :
    (match c.toJson with
      | Json.obj kvs => Change.from_json kvs
      | _ => none) = some c ∧
    Change.from_json
        [("type", Json.str t.str), ("description", Json.str d)] =
      some ⟨t, d, []⟩ ∧
    Change.from_json
        [("type", Json.str t.str), ("description", Json.str d),
          ("pull_requests", Json.null)] =
      some ⟨t, d, []⟩ ∧
    Change.from_json
        [("type", Json.str t.name), ("description", Json.str d)] =
      some ⟨t, d, []⟩ := by
  refine ⟨?_, ?_, ?_, ?_⟩
  · obtain ⟨ct, cd, cprs⟩ := c
    show Change.from_json _ = _
    unfold Change.from_json
    simp only [Option.bind_eq_bind]
    rw [show pyGet [("type", Json.str (ChangeType.str ct)),
          ("description", Json.str cd),
          ("pull_requests", Json.arr (cprs.map Json.str))] "type" =
        some (Json.str (ChangeType.str ct)) from rfl]
    simp only [Option.some_bind]
    rw [show (Json.str (ChangeType.str ct)).asStr =
        some (ChangeType.str ct) from rfl]
    simp only [Option.some_bind]
    rw [fromName_upper_str ct]
    simp only [Option.some_bind]
    rw [show pyGet [("type", Json.str (ChangeType.str ct)),
          ("description", Json.str cd),
          ("pull_requests", Json.arr (cprs.map Json.str))] "description" =
        some (Json.str cd) from rfl]
    simp only [Option.some_bind]
    rw [show (Json.str cd).asStr = some cd from rfl]
    simp only [Option.some_bind]
    rw [show pyGet [("type", Json.str (ChangeType.str ct)),
          ("description", Json.str cd),
          ("pull_requests", Json.arr (cprs.map Json.str))] "pull_requests" =
        some (Json.arr (cprs.map Json.str)) from rfl]
    show ((cprs.map Json.str).mapM Json.asStr).bind
        (fun y => (pure ⟨ct, cd, y⟩ : Option Change)) =
      some ⟨ct, cd, cprs⟩
    rw [mapM_asStr]
    rfl
  · cases t <;> rfl
  · cases t <;> rfl
  · cases t <;> rfl

/-- C5: `change_map()` groups the release's changes by type, returns the
groups ordered `Breaking, Feature, BugFix, Documentation, Other` (by
ascending rank, omitting absent types) regardless of the input order of
the changes list, and within each group the changes appear in their
original (discovery) order. -/
theorem claim_C5 (changes : List Change) :
    change_map changes = canonicalGroups changes :=
  changeMap_eq_canonicalGroups changes

/-! ## Renderer (`smithy_changelog/render.py`)

`render.py` defines its own local `Version` dataclass whose `from_path`
splits the file name on every dot and requires exactly four parts; the
`__lt__` is the same lexicographic order, so we reuse the `Version`
record and model only the different `from_path`.
-/

/-- `Version.from_path` of the render module. -/
def renderVersionFromPath (name : String) : Except String Version :=
  match pySplitAll '.' name with
  | [a, b, c, _] =>
    match pyInt a, pyInt b, pyInt c with
    | some x, some y, some z => .ok ⟨x, y, z⟩
    | _, _, _ => .error "invalid literal for int() with base 10"
  | _ => .error "Invalid release file name. Expected `major.minor.patch.extension`"

/-- A file of the releases directory with its content: a structured
`*.json` release or a legacy pre-rendered `*.md` text block.  The
constructor tag models the `name.endswith("md")` test that separates the
two globbed populations. -/
inductive RelFile
  | json (name : String) (rel : SRelease)
  | md (name : String) (text : String)
deriving DecidableEq, Repr

def RelFile.name : RelFile → String
  | .json n _ => n
  | .md n _ => n

/-- Descending key order used by
`sorted(release_files, key=Version.from_path, reverse=True)`. -/
def keyGe (a b : Version × RelFile) : Prop :=
  ¬Version.lt a.1 b.1 = true

instance : DecidableRel keyGe := fun a b =>
  inferInstanceAs (Decidable ¬_)

instance : IsTotal (Version × RelFile) keyGe :=
  ⟨fun a b => by
    unfold keyGe
    rw [Version.lt_iff, Version.lt_iff]
    omega⟩

instance : IsTrans (Version × RelFile) keyGe :=
  ⟨fun a b c => by
    unfold keyGe
    rw [Version.lt_iff, Version.lt_iff, Version.lt_iff]
    omega⟩

/-- The sorted, still-keyed file list of `get_releases`: every file name
is keyed by the render module's `Version.from_path` (a failure aborts the
listing) and the list is sorted by key descending. -/
def getReleasesKeyed (files : List RelFile) :
    Except String (List (Version × RelFile)) := do
  let keyed ← files.mapM (fun f => do
    let v ← renderVersionFromPath f.name
    pure (v, f))
  pure (List.insertionSort keyGe keyed)

/-- `get_releases`: in sorted order, a `*.md` file contributes its
stripped text and a `*.json` file its parsed `Release`. -/
def get_releases (files : List RelFile) :
    Except String (List (SRelease ⊕ String)) :=
  (getReleasesKeyed files).map (List.map (fun p =>
    match p.2 with
    | .json _ rel => Sum.inl rel
    | .md _ text => Sum.inr (pyStrip text)))

/-- C2 (amended): the `smithy_changelog` renderer emits releases in
descending file-name-version order, newest first (so `1.1.0` precedes
`1.0.0`); the legacy `tool` renderer instead sorts releases ascending by
their `date` field (its `Release.__lt__` compares dates), emitting the
oldest release's section first. -/
theorem claim_C2_amended (files : List RelFile) (ks : List (Version × RelFile))
    (h : getReleasesKeyed files = .ok ks) :
    ks.Pairwise keyGe ∧
      get_releases files =
        .ok (ks.map (fun p =>
          match p.2 with
          | .json _ rel => Sum.inl rel
          | .md _ text => Sum.inr (pyStrip text))) := by
  constructor
  · unfold getReleasesKeyed at h
    rcases hk : files.mapM (fun f => do
        let v ← renderVersionFromPath f.name
        pure (v, f)) with _ | keyed <;> rw [hk] at h
    · cases h
    · have h' : Except.ok (List.insertionSort keyGe keyed) =
          (.ok ks : Except String (List (Version × RelFile))) := h
      cases h'
      exact List.sorted_insertionSort keyGe keyed
  · unfold get_releases
    rw [h]
    rfl

/-- Witness for C2 (amended) at two concrete releases: `1.1.0` is keyed
and emitted before `1.0.0`. -/
theorem claim_C2_amended_witness :
    getReleasesKeyed
        [RelFile.json "1.1.0.json"
            ⟨⟨1, 1, 0⟩, [⟨ChangeType.FEATURE, "Add X", []⟩], "2024-06-01"⟩,
          RelFile.json "1.0.0.json"
            ⟨⟨1, 0, 0⟩, [⟨ChangeType.OTHER, "Initial", []⟩], "2024-01-01"⟩] =
      .ok [(⟨1, 1, 0⟩, RelFile.json "1.1.0.json"
              ⟨⟨1, 1, 0⟩, [⟨ChangeType.FEATURE, "Add X", []⟩], "2024-06-01"⟩),
            (⟨1, 0, 0⟩, RelFile.json "1.0.0.json"
              ⟨⟨1, 0, 0⟩, [⟨ChangeType.OTHER, "Initial", []⟩], "2024-01-01"⟩)] ∧
    ([((⟨1, 1, 0⟩ : Version), RelFile.json "1.1.0.json"
          ⟨⟨1, 1, 0⟩, [⟨ChangeType.FEATURE, "Add X", []⟩], "2024-06-01"⟩),
        (⟨1, 0, 0⟩, RelFile.json "1.0.0.json"
          ⟨⟨1, 0, 0⟩, [⟨ChangeType.OTHER, "Initial", []⟩], "2024-01-01"⟩)]).Pairwise
      keyGe :=
  ⟨rfl,
    (claim_C2_amended
      [RelFile.json "1.1.0.json"
          ⟨⟨1, 1, 0⟩, [⟨ChangeType.FEATURE, "Add X", []⟩], "2024-06-01"⟩,
        RelFile.json "1.0.0.json"
          ⟨⟨1, 0, 0⟩, [⟨ChangeType.OTHER, "Initial", []⟩], "2024-01-01"⟩]
      [(⟨1, 1, 0⟩, RelFile.json "1.1.0.json"
          ⟨⟨1, 1, 0⟩, [⟨ChangeType.FEATURE, "Add X", []⟩], "2024-06-01"⟩),
        (⟨1, 0, 0⟩, RelFile.json "1.0.0.json"
          ⟨⟨1, 0, 0⟩, [⟨ChangeType.OTHER, "Initial", []⟩], "2024-01-01"⟩)]
      rfl).1⟩

/-! ## Legacy renderer (`tool/render.py` with `tool/__init__.py`)

The legacy `tool` package has its own `Release` dataclass whose `version`
is a plain string, whose `date` defaults to today, and whose `__lt__`
compares the `date` fields.  Its `get_releases` returns
`sorted(releases)`, i.e. ascending in that date order.
-/

/-- The legacy `Release` of `tool/__init__.py`. -/
structure ToolRelease where
  version : String
  changes : List Change
  date : String
deriving DecidableEq, Repr

/-- Python string comparison (lexicographic by code point). -/
def pyStrLtChars : List Char → List Char → Bool
  | [], [] => false
  | [], _ :: _ => true
  | _ :: _, [] => false
  | a :: as, b :: bs =>
    if a.toNat < b.toNat then true
    else if b.toNat < a.toNat then false
    else pyStrLtChars as bs

def pyStrLt (a b : String) : Bool :=
  pyStrLtChars a.data b.data

/-- Stable-ascending comparison used by `sorted(releases)`: `a` may stay
before `b` iff `not (b < a)` under `Release.__lt__`, which compares
dates. -/
def toolRelLe (a b : ToolRelease) : Prop :=
  ¬pyStrLt b.date a.date = true

instance : DecidableRel toolRelLe := fun a b =>
  inferInstanceAs (Decidable ¬_)

/-- `get_releases` of `tool/render.py`: `sorted(releases)` (ascending by
date). -/
def toolGetReleases (releases : List ToolRelease) : List ToolRelease :=
  List.insertionSort toolRelLe releases

/-- Model of `", ".join(prs)`. -/
def pyJoin (sep : String) : List String → String
  | [] => ""
  | [x] => x
  | x :: xs => x ++ sep ++ pyJoin sep xs

/-- Concatenation of the emitted pieces (the `rendered +=` loop). -/
def concatList : List String → String
  | [] => ""
  | s :: rest => s ++ concatList rest

/-- `render_change` of `tool/render.py`. -/
def tool_render_change (c : Change) : String :=
  "* " ++ c.description ++
    (match c.pull_requests with
      | [] => ""
      | prs => "(" ++ pyJoin ", " prs ++ ")") ++ "\n"

/-- One release's block of `render` of `tool/render.py`. -/
def tool_render_release (r : ToolRelease) : String :=
  "## " ++ r.version ++ " (" ++ r.date ++ ")\n\n" ++
    concatList ((change_map r.changes).map (fun p =>
      "### " ++ p.1.section_title ++ "\n\n" ++
        concatList (p.2.map tool_render_change) ++ "\n"))

/-- `render` of `tool/render.py` (the printed text). -/
def tool_render (releases : List ToolRelease) : String :=
  "# Changelog\n\n" ++
    concatList ((toolGetReleases releases).map tool_render_release)

/-- The order in which `render` emits the release sections: it iterates
`get_releases()` in list order. -/
def toolRenderOrder (releases : List ToolRelease) : List String :=
  (toolGetReleases releases).map (fun r => r.version)

/-- C2 (counterexample): the claim says rendering persisted releases
`1.1.0` and `1.0.0` emits `1.1.0`'s section first (descending order).
The legacy `tool` renderer sorts releases ascending by date, so it emits
`1.0.0`'s section before `1.1.0`'s, as the fully rendered text shows. -/
theorem claim_C2_counterexample :
    toolGetReleases
        [⟨"1.1.0", [⟨ChangeType.FEATURE, "Add X", []⟩], "2024-06-01"⟩,
          ⟨"1.0.0", [⟨ChangeType.OTHER, "Initial", []⟩], "2024-01-01"⟩] =
      [⟨"1.0.0", [⟨ChangeType.OTHER, "Initial", []⟩], "2024-01-01"⟩,
        ⟨"1.1.0", [⟨ChangeType.FEATURE, "Add X", []⟩], "2024-06-01"⟩] ∧
    toolRenderOrder
        [⟨"1.1.0", [⟨ChangeType.FEATURE, "Add X", []⟩], "2024-06-01"⟩,
          ⟨"1.0.0", [⟨ChangeType.OTHER, "Initial", []⟩], "2024-01-01"⟩] =
      ["1.0.0", "1.1.0"] ∧
    ¬((toolRenderOrder
          [⟨"1.1.0", [⟨ChangeType.FEATURE, "Add X", []⟩], "2024-06-01"⟩,
            ⟨"1.0.0", [⟨ChangeType.OTHER, "Initial", []⟩], "2024-01-01"⟩]).indexOf
          "1.1.0" <
        (toolRenderOrder
          [⟨"1.1.0", [⟨ChangeType.FEATURE, "Add X", []⟩], "2024-06-01"⟩,
            ⟨"1.0.0", [⟨ChangeType.OTHER, "Initial", []⟩], "2024-01-01"⟩]).indexOf
          "1.0.0") ∧
    tool_render
        [⟨"1.1.0", [⟨ChangeType.FEATURE, "Add X", []⟩], "2024-06-01"⟩,
          ⟨"1.0.0", [⟨ChangeType.OTHER, "Initial", []⟩], "2024-01-01"⟩] =
      "# Changelog\n\n## 1.0.0 (2024-01-01)\n\n### Other\n\n* Initial\n\n## 1.1.0 (2024-06-01)\n\n### Features\n\n* Add X\n\n" := by
  refine ⟨by rfl, by rfl, by decide, by rfl⟩

/-! ## GitHub comment client (`tool/github.py`)

`post_comment` is modelled against a remote whose issue-comment bodies
(over all pages of `get_comments`) are `existing`; a creation request
appends the body remotely.  The second component counts the creation
requests the call performs (zero or one).
-/

/-- `post_comment`: when `allow_duplicate` is false the call scans the
existing comments and returns without posting on a byte-identical body;
otherwise it issues one creation request. -/
def post_comment (existing : List String) (comment : String)
    (allow_duplicate : Bool) : List String × Nat :=
  if allow_duplicate = false ∧ comment ∈ existing then (existing, 0)
  else (existing ++ [comment], 1)

/-- C8: for every remote state and body not yet posted, calling
`post_comment` twice with the identical body and `allow_duplicate=false`
performs exactly one creation request: the first call posts, the second
finds the byte-identical body among the listed comments and performs no
creation request. -/
theorem claim_C8 (existing : List String) (comment : String)
    (h : comment ∉ existing) :
    (post_comment existing comment false).2 = 1 ∧
    (post_comment (post_comment existing comment false).1 comment false).2 = 0 ∧
    (post_comment existing comment false).2 +
        (post_comment (post_comment existing comment false).1 comment false).2 =
      1 := by
  unfold post_comment
  simp [h]

/-- Witness for C8 on an empty remote. -/
theorem claim_C8_witness :
    ("hello" ∉ ([] : List String)) ∧
    (post_comment [] "hello" false).2 = 1 ∧
    (post_comment (post_comment [] "hello" false).1 "hello" false).2 = 0 := by
  refine ⟨by simp, ?_, ?_⟩
  · exact (claim_C8 [] "hello" (by simp)).1
  · exact (claim_C8 [] "hello" (by simp)).2.1

/-! ## Amend workflow (`tool/amend.py`)

`amend` is modelled as a function from the discovered staged-change map
(the dict built by `get_new_changes`, in insertion order, keyed by file
path) to the list of actions it performs: posting the generic reminder
comment, posting a suggestion review comment for a file, or patching a
staged file in place.  The action payload carries the amended `Change`
(the suggestion body and the rewritten file contents are its serialized
forms).
-/

inductive AmendAction
  | postReminder
  | suggest (file : String) (amended : Change)
  | patchFile (file : String) (amended : Change)
deriving DecidableEq, Repr

/-- One iteration of the `amend` loop: a change without pull requests is
amended with the PR reference and either suggested as a review comment or
written back to disk; a change that already has pull requests is
skipped. -/
def amendEntry (prRef : String) (reviewComment : Bool) (e : String × Change) :
    List AmendAction :=
  if e.2.pull_requests = [] then
    if reviewComment then
      [AmendAction.suggest e.1 ⟨e.2.type, e.2.description, [prRef]⟩]
    else
      [AmendAction.patchFile e.1 ⟨e.2.type, e.2.description, [prRef]⟩]
  else []

/-- `amend`: the reminder comment when nothing was discovered (and review
mode is on), then the per-file loop. -/
def amend (prRef : String) (reviewComment : Bool)
    (changes : List (String × Change)) : List AmendAction :=
  (if changes = [] ∧ reviewComment = true then [AmendAction.postReminder]
    else []) ++
    changes.flatMap (amendEntry prRef reviewComment)

/-- Does an action write to or post a suggestion for `file`? -/
def actionTouches (file : String) : AmendAction → Bool
  | .postReminder => false
  | .suggest f _ => f = file
  | .patchFile f _ => f = file

theorem entry_eq_of_nodup (changes : List (String × Change))
    (hnd : (changes.map Prod.fst).Nodup) (e₁ e₂ : String × Change)
    (h₁ : e₁ ∈ changes) (h₂ : e₂ ∈ changes) (hf : e₁.1 = e₂.1) : e₁ = e₂ := by
  induction changes with
  | nil => cases h₁
  | cons p rest ih =>
    rw [List.map_cons, List.nodup_cons] at hnd
    obtain ⟨hp, hrest⟩ := hnd
    rcases List.mem_cons.mp h₁ with he₁ | he₁ <;>
      rcases List.mem_cons.mp h₂ with he₂ | he₂
    · rw [he₁, he₂]
    · subst he₁
      exact absurd (List.mem_map.mpr ⟨e₂, he₂, hf.symm⟩) hp
    · subst he₂
      exact absurd (List.mem_map.mpr ⟨e₁, he₁, hf⟩) hp
    · exact ih hrest he₁ he₂

/-- C9: for every staged change file discovered by the amend workflow
whose parsed `Change` already has a non-empty `pull_requests` list,
`amend` performs no action on that file: it neither patches the file nor
posts a suggestion for it. -/
theorem claim_C9 (prRef : String) (reviewComment : Bool)
    (changes : List (String × Change)) (file : String) (c : Change)
    (hmem : (file, c) ∈ changes) (hprs : c.pull_requests ≠ [])
    (hnd : (changes.map Prod.fst).Nodup) :
    ∀ a ∈ amend prRef reviewComment changes, actionTouches file a = false := by
  intro a ha
  unfold amend at ha
  rw [List.mem_append] at ha
  rcases ha with ha | ha
  · split at ha
    · rw [List.mem_singleton] at ha
      rw [ha]
      rfl
    · cases ha
  · rcases List.mem_flatMap.mp ha with ⟨e, he, hae⟩
    by_cases hef : e.1 = file
    · have heq : e = (file, c) :=
        entry_eq_of_nodup changes hnd e (file, c) he hmem hef
      rw [heq] at hae
      simp [amendEntry, hprs] at hae
    · unfold amendEntry at hae
      split at hae
      · split at hae <;>
          (rw [List.mem_singleton] at hae
           rw [hae]
           simp [actionTouches, hef])
      · cases hae

/-- Witness for C9: a discovered entry that already carries a pull
request is left untouched. -/
theorem claim_C9_witness :
    (("a.json", (⟨ChangeType.FEATURE, "x", ["ref"]⟩ : Change)) ∈
      [("a.json", (⟨ChangeType.FEATURE, "x", ["ref"]⟩ : Change))]) ∧
    ((⟨ChangeType.FEATURE, "x", ["ref"]⟩ : Change).pull_requests ≠ []) ∧
    (([("a.json", (⟨ChangeType.FEATURE, "x", ["ref"]⟩ : Change))].map
        Prod.fst).Nodup) ∧
    (∀ a ∈ amend "r" true [("a.json", ⟨ChangeType.FEATURE, "x", ["ref"]⟩)],
      actionTouches "a.json" a = false) := by
  refine ⟨by simp, by simp, by simp, ?_⟩
  exact claim_C9 "r" true [("a.json", ⟨ChangeType.FEATURE, "x", ["ref"]⟩)]
    "a.json" ⟨ChangeType.FEATURE, "x", ["ref"]⟩ (by simp) (by simp) (by simp)

end Smithy
